import Mathlib

/-
  A shallow embedding of the core of the macrofx repository:

  * the retry loop `runWithRetry` (src/macros/env.ts, lines 48-84; the earlier
    revision lives in src/macros/retry.ts),
  * the pipeline executor `execute` (src/core.ts, with the later revision in
    src/unnamed/part_012),
  * the LRU + TTL cache (src/lib/cache.ts),
  * the circuit breaker (createCircuitBreaker in src/docs/meta-capabilities-part2.md).

  JavaScript values that cross the retry boundary are modelled by the inductive
  type `JSVal`; time is an explicit natural-number parameter everywhere the
  source calls Date.now(); fallible code returns an explicit `Outcome`.
-/

namespace MacroFX

/-- Success or a raised (thrown) value, both carrying a payload of type `V`. -/
inductive Outcome (V : Type) where
  | ok (v : V)
  | raise (v : V)
deriving DecidableEq, Repr

/-- The JavaScript values relevant to the retry controller: `undefined`,
numbers, strings, Error objects (message plus `cause`, with `JSVal.jsUndefined`
standing for an absent cause) and retry signals, the tagged wrappers
`\x7b __type: RETRY_SENTINEL, error \x7d` of src/macros/retry.ts. -/
inductive JSVal where
  | jsUndefined
  | num (n : Int)
  | str (s : String)
  | errObj (msg : String) (cause : JSVal)
  | signal (error : JSVal)
deriving DecidableEq, Repr

/-- The default classifier `isRetrySignal` (src/macros/retry.ts lines 8-9):
true exactly on retry-signal wrappers. -/
def isRetrySignal : JSVal → Bool
  | .signal _ => true
  | _ => false

/-- Property access `lastSignal?.error` on a defined value: the `error` field
of a retry signal, and JavaScript's `undefined` on every other value. -/
def jsErrorField : JSVal → JSVal
  | .signal e => e
  | _ => .jsUndefined

/-- The fresh generic exhaustion error `new Error("retry: exhausted")`. -/
def genericExhausted : JSVal := .errObj "retry: exhausted" .jsUndefined

/-- The value thrown by `runWithRetry` when all attempts are used up
(src/macros/env.ts lines 79-83): `lastSignal?.error ?? new Error("retry:
exhausted")`, thrown as-is when it is an Error instance, otherwise wrapped in
a new Error whose message is the value itself when it is a string and the
generic message otherwise, carrying the value as `cause`. -/
def raisedOnExhaustion (lastSignal : Option JSVal) : JSVal :=
  let finalError :=
    match lastSignal with
    | none => genericExhausted
    | some ls =>
      match jsErrorField ls with
      | .jsUndefined => genericExhausted
      | e => e
  match finalError with
  | .errObj m c => .errObj m c
  | .str s => .errObj s (.str s)
  | other => .errObj "retry: exhausted" other

/-- Outcome of one invocation of the retried function `fn`: it either
returned a value or threw one. -/
inductive AttemptOut where
  | ret (v : JSVal)
  | thr (v : JSVal)
deriving DecidableEq, Repr

/-- The payload of an attempt outcome, whether returned or thrown. -/
def AttemptOut.val : AttemptOut → JSVal
  | .ret v => v
  | .thr v => v

/-- Observable result of `runWithRetry`: the returned or raised value, the
number of invocations of `fn`, and the number of inter-attempt sleeps. -/
structure RetryResult where
  out : Outcome JSVal
  calls : Nat
  sleeps : Nat
deriving DecidableEq, Repr

/-- The attempt loop of `runWithRetry` (src/macros/env.ts lines 54-77).
The outcomes of the successive invocations of `fn` are supplied as a list,
one element per loop index `i`; `lastSignal`, `calls` and `sleeps` are the
accumulated loop state. A thrown value that the classifier rejects is
re-thrown at once; a returned value the classifier rejects is the final
result; a classified (retryable) value is recorded in `lastSignal`, and
`sleep(delayMs)` runs after every attempt but the last. -/
def retryGo (signal : JSVal → Bool) :
    List AttemptOut → Option JSVal → Nat → Nat → RetryResult
  | [], lastSignal, calls, sleeps =>
      ⟨.raise (raisedOnExhaustion lastSignal), calls, sleeps⟩
  | .thr v :: rest, _, calls, sleeps =>
      if signal v then
        retryGo signal rest (some v) (calls + 1)
          (if rest.isEmpty then sleeps else sleeps + 1)
      else
        ⟨.raise v, calls + 1, sleeps⟩
  | .ret v :: rest, _, calls, sleeps =>
      if signal v then
        retryGo signal rest (some v) (calls + 1)
          (if rest.isEmpty then sleeps else sleeps + 1)
      else
        ⟨.ok v, calls + 1, sleeps⟩

/-- `runWithRetry(fn, times, delayMs, signal)` (src/macros/env.ts lines
48-84), with `fn`'s behaviour on the `times` successive attempts given by
the list `attempts` (so `times = attempts.length`). -/
def runWithRetry (signal : JSVal → Bool) (attempts : List AttemptOut) : RetryResult :=
  retryGo signal attempts none 0 0

theorem retryGo_all_signal (signal : JSVal → Bool) :
    ∀ (attempts : List AttemptOut) (last : AttemptOut),
      attempts.getLast? = some last →
      (∀ a ∈ attempts, signal a.val = true) →
      ∀ (ls : Option JSVal) (calls sleeps : Nat),
        retryGo signal attempts ls calls sleeps =
          ⟨.raise (raisedOnExhaustion (some last.val)),
            calls + attempts.length, sleeps + (attempts.length - 1)⟩ := by
  intro attempts
  induction attempts with
  | nil => intro last h; simp at h
  | cons a rest ih =>
    intro last hlast hall ls calls sleeps
    have ha : signal a.val = true := hall a (by simp)
    cases rest with
    | nil =>
      have hla : a = last := by
        simp [List.getLast?] at hlast; exact hlast
      subst hla
      cases a with
      | thr v => simp only [AttemptOut.val] at ha ⊢; simp [retryGo, ha]
      | ret v => simp only [AttemptOut.val] at ha ⊢; simp [retryGo, ha]
    | cons b rest' =>
      have hlast' : (b :: rest').getLast? = some last := by
        rwa [List.getLast?_cons_cons] at hlast
      have hrest : ∀ x ∈ b :: rest', signal x.val = true := fun x hx =>
        hall x (List.mem_cons_of_mem a hx)
      cases a with
      | thr v =>
        simp only [AttemptOut.val] at ha
        have key := ih last hlast' hrest (some v) (calls + 1) (sleeps + 1)
        have hstep : retryGo signal (.thr v :: b :: rest') ls calls sleeps =
            retryGo signal (b :: rest') (some v) (calls + 1) (sleeps + 1) := by
          simp [retryGo, ha]
        rw [hstep, key]
        simp only [RetryResult.mk.injEq, List.length_cons]
        exact ⟨trivial, by omega, by omega⟩
      | ret v =>
        simp only [AttemptOut.val] at ha
        have key := ih last hlast' hrest (some v) (calls + 1) (sleeps + 1)
        have hstep : retryGo signal (.ret v :: b :: rest') ls calls sleeps =
            retryGo signal (b :: rest') (some v) (calls + 1) (sleeps + 1) := by
          simp [retryGo, ha]
        rw [hstep, key]
        simp only [RetryResult.mk.injEq, List.length_cons]
        exact ⟨trivial, by omega, by omega⟩

/-- C1 (amended): if every one of the `times = attempts.length ≥ 1` attempts
is classified retryable, `runWithRetry` makes all `times` calls, sleeps
between consecutive attempts only, and fails by raising
`raisedOnExhaustion` of the last recorded retryable failure; that raised
value is the failure's underlying error whenever that underlying error is an
Error instance, and it is the generic exhaustion error whenever the
underlying error is `undefined` — so a recorded failure whose `error` field
is `undefined` still produces the generic exhaustion error. -/
theorem retry_exhaustion_raises_last (signal : JSVal → Bool)
    (attempts : List AttemptOut) (hne : attempts ≠ [])
    (hall : ∀ a ∈ attempts, signal a.val = true) :
    runWithRetry signal attempts =
      ⟨.raise (raisedOnExhaustion (some ((attempts.getLast hne).val))),
        attempts.length, attempts.length - 1⟩ ∧
    (∀ m c, jsErrorField ((attempts.getLast hne).val) = .errObj m c →
      raisedOnExhaustion (some ((attempts.getLast hne).val)) = .errObj m c) ∧
    (jsErrorField ((attempts.getLast hne).val) = .jsUndefined →
      raisedOnExhaustion (some ((attempts.getLast hne).val)) = genericExhausted) := by
  refine ⟨?_, ?_, ?_⟩
  · have h0 : attempts.getLast? = some (attempts.getLast hne) :=
      List.getLast?_eq_getLast attempts hne
    have := retryGo_all_signal signal attempts (attempts.getLast hne) h0 hall none 0 0
    simpa [runWithRetry] using this
  · intro m c h
    simp [raisedOnExhaustion, h]
  · intro h
    simp [raisedOnExhaustion, h, genericExhausted]

/-- Witness for `retry_exhaustion_raises_last` at a concrete input: two
attempts, both throwing retry signals whose underlying error is the Error
object with message "boom". -/
theorem retry_exhaustion_raises_last_witness :
    runWithRetry isRetrySignal
        [.thr (.signal (.errObj "boom" .jsUndefined)), .thr (.signal (.errObj "boom" .jsUndefined))] =
      ⟨.raise (.errObj "boom" .jsUndefined), 2, 1⟩ := by
  have h := retry_exhaustion_raises_last isRetrySignal
    [.thr (.signal (.errObj "boom" .jsUndefined)), .thr (.signal (.errObj "boom" .jsUndefined))]
    (by decide) (by decide)
  rw [h.1]
  decide

/-- C1 (counterexample to the claim as stated): a single attempt throwing a
retry signal whose `error` field is `undefined` is classified retryable and
recorded, yet exhaustion raises the generic exhaustion error rather than the
underlying error `undefined`. -/
theorem retry_exhaust_generic_despite_signal :
    isRetrySignal (.signal .jsUndefined) = true ∧
    runWithRetry isRetrySignal [.thr (.signal .jsUndefined)] =
      ⟨.raise genericExhausted, 1, 0⟩ ∧
    genericExhausted ≠ jsErrorField (.signal .jsUndefined) := by
  decide

/-- C2: a thrown value the classifier rejects propagates at once: the run
fails with exactly that value, after exactly one invocation of `fn` and with
no inter-attempt sleep, whatever attempts would have remained. -/
theorem retry_nonretryable_propagates (signal : JSVal → Bool) (v : JSVal)
    (rest : List AttemptOut) (h : signal v = false) :
    runWithRetry signal (.thr v :: rest) = ⟨.raise v, 1, 0⟩ := by
  simp [runWithRetry, retryGo, h]

/-- Witness for `retry_nonretryable_propagates`: a non-signal thrown string
under the default classifier, with two attempts nominally remaining. -/
theorem retry_nonretryable_propagates_witness :
    runWithRetry isRetrySignal [.thr (.str "fatal"), .ret (.num 1), .ret (.num 2)] =
      ⟨.raise (.str "fatal"), 1, 0⟩ :=
  retry_nonretryable_propagates isRetrySignal (.str "fatal") [.ret (.num 1), .ret (.num 2)]
    (by decide)

/-! The instance-based cache of src/lib/cache.ts. The backing JavaScript
`Map` is modelled as an association list in insertion order, with `Map.set`
updating an existing key in place and appending a new one, `Map.delete`
removing the sole binding of a key, and iteration running front to back. -/

/-- A cache entry (src/lib/cache.ts lines 12-16): the stored value, the
optional expiry timestamp `exp`, and the last-accessed timestamp `at`
(spelt `at'` here because `at` is a Lean keyword). -/
structure Entry (V : Type) where
  v : V
  exp : Option Nat
  at' : Nat
deriving DecidableEq, Repr

variable {K V : Type}

/-- `map.get(key)` on the insertion-ordered association list. -/
def mapGet [DecidableEq K] (m : List (K × Entry V)) (k : K) : Option (Entry V) :=
  (m.find? (fun p => p.1 = k)).map (·.2)

/-- `map.set(key, e)`: update in place when the key is present, append
otherwise. -/
def mapSet [DecidableEq K] : List (K × Entry V) → K → Entry V → List (K × Entry V)
  | [], k, e => [(k, e)]
  | (k', e') :: rest, k, e =>
      if k' = k then (k, e) :: rest else (k', e') :: mapSet rest k e

/-- `map.delete(key)`: remove the binding of the key, if any. -/
def mapDelete [DecidableEq K] : List (K × Entry V) → K → List (K × Entry V)
  | [], _ => []
  | (k', e') :: rest, k => if k' = k then rest else (k', e') :: mapDelete rest k

/-- `isExpired` (src/lib/cache.ts lines 28-29) at current time `t`: an entry
with a numeric expiry is expired exactly when `t` is strictly past it. -/
def isExpired (t : Nat) (e : Entry V) : Bool :=
  match e.exp with
  | some x => t > x
  | none => false

/-- The scan inside `evictLRU` (src/lib/cache.ts lines 37-44): iterate over
the entries tracking the key with the strictly smallest `at` seen so far
(`lruAt` starts at Infinity, so the first entry always becomes the initial
candidate; a later entry replaces it only with a strictly smaller `at`). -/
def lruScan : List (K × Entry V) → Option (K × Nat) → Option (K × Nat)
  | [], best => best
  | (k, e) :: rest, none => lruScan rest (some (k, e.at'))
  | (k, e) :: rest, some (bk, bat) =>
      if e.at' < bat then lruScan rest (some (k, e.at'))
      else lruScan rest (some (bk, bat))

/-- `evictLRU` (src/lib/cache.ts lines 35-46): when over capacity, delete
the entry found by the scan. -/
def evictLRU [DecidableEq K] (maxSize : Nat) (m : List (K × Entry V)) :
    List (K × Entry V) :=
  if m.length ≤ maxSize then m
  else
    match lruScan m none with
    | some (k, _) => mapDelete m k
    | none => m

/-- `get` (src/lib/cache.ts lines 48-57) at current time `t`: a missing key
is a miss; an expired entry is deleted and is a miss; otherwise the entry's
`at` is bumped to `t` and its value returned. Returns the value (if any)
and the updated map. -/
def cacheGet [DecidableEq K] (t : Nat) (m : List (K × Entry V)) (k : K) :
    Option V × List (K × Entry V) :=
  match mapGet m k with
  | none => (none, m)
  | some e =>
      if isExpired t e then (none, mapDelete m k)
      else (some e.v, mapSet m k { e with at' := t })

/-- The expiry computed by `set` (src/lib/cache.ts lines 60-62): the
timestamp `t + (ttlMs ?? defaultTtlMs)` when either TTL is given, absent
otherwise. -/
def cacheExp (defaultTtlMs ttlMs : Option Nat) (t : Nat) : Option Nat :=
  match ttlMs with
  | some d => some (t + d)
  | none =>
    match defaultTtlMs with
    | some d => some (t + d)
    | none => none

/-- `set` (src/lib/cache.ts lines 59-67) at current time `t`: compute the
expiry, insert the entry with `at = t`, then run the single-step LRU
eviction if capacity is now exceeded. -/
def cacheSet [DecidableEq K] (maxSize : Nat) (defaultTtlMs : Option Nat) (t : Nat)
    (m : List (K × Entry V)) (k : K) (v : V) (ttlMs : Option Nat) :
    List (K × Entry V) :=
  let m1 := mapSet m k ⟨v, cacheExp defaultTtlMs ttlMs t, t⟩
  if m1.length > maxSize then evictLRU maxSize m1 else m1

/-- The `maxSize` configuration of `createCache` (src/lib/cache.ts line 22):
the option defaults to 1000 and is clamped to at least 1. -/
def cacheMaxSize (opt : Option Nat) : Nat := max 1 (opt.getD 1000)

theorem lruScan_some_of_ne_nil (m : List (K × Entry V)) (best : Option (K × Nat)) :
    m ≠ [] ∨ best.isSome → ∃ k a, lruScan m best = some (k, a) := by
  induction m generalizing best with
  | nil =>
    rintro (h | h)
    · exact absurd rfl h
    · cases best with
      | none => simp at h
      | some p => exact ⟨p.1, p.2, rfl⟩
  | cons p rest ih =>
    intro _
    obtain ⟨k, e⟩ := p
    cases best with
    | none => exact ih (some (k, e.at')) (Or.inr rfl)
    | some q =>
      obtain ⟨bk, bat⟩ := q
      by_cases hlt : e.at' < bat
      · simpa [lruScan, hlt] using ih (some (k, e.at')) (Or.inr rfl)
      · simpa [lruScan, hlt] using ih (some (bk, bat)) (Or.inr rfl)

theorem lruScan_min (m : List (K × Entry V)) :
    ∀ (best : Option (K × Nat)) (k : K) (a : Nat),
      lruScan m best = some (k, a) →
      ((k, a) ∈ m.map (fun p => (p.1, p.2.at')) ∨ best = some (k, a)) ∧
      (∀ p ∈ m, a ≤ p.2.at') ∧
      (∀ bk ba, best = some (bk, ba) → a ≤ ba) := by
  induction m with
  | nil =>
    intro best k a h
    simp [lruScan] at h
    subst h
    exact ⟨Or.inr rfl, by simp, by intro bk ba hb; cases hb; rfl⟩
  | cons p rest ih =>
    intro best k a h
    obtain ⟨pk, pe⟩ := p
    cases best with
    | none =>
      have h' := ih (some (pk, pe.at')) k a h
      refine ⟨?_, ?_, ?_⟩
      · rcases h'.1 with hin | heq
        · exact Or.inl (by simp at hin ⊢; tauto)
        · have hpk : pk = k ∧ pe.at' = a := by simpa using heq
          exact Or.inl (by simp [hpk.1, hpk.2])
      · intro q hq
        rcases List.mem_cons.mp hq with rfl | hq'
        · exact h'.2.2 pk pe.at' rfl
        · exact h'.2.1 q hq'
      · intro bk ba hb; cases hb
    | some q =>
      obtain ⟨bk0, ba0⟩ := q
      by_cases hlt : pe.at' < ba0
      · simp only [lruScan, hlt, if_true] at h
        have h' := ih (some (pk, pe.at')) k a h
        refine ⟨?_, ?_, ?_⟩
        · rcases h'.1 with hin | heq
          · exact Or.inl (by simp at hin ⊢; tauto)
          · have hpk : pk = k ∧ pe.at' = a := by simpa using heq
            exact Or.inl (by simp [hpk.1, hpk.2])
        · intro r hr
          rcases List.mem_cons.mp hr with rfl | hr'
          · exact h'.2.2 pk pe.at' rfl
          · exact h'.2.1 r hr'
        · intro bk ba hb
          injection hb with h1
          injection h1 with h2 h3
          subst h3
          have h4 : a ≤ pe.at' := h'.2.2 pk pe.at' rfl
          omega
      · simp only [lruScan, hlt, if_false] at h
        have h' := ih (some (bk0, ba0)) k a h
        refine ⟨?_, ?_, ?_⟩
        · rcases h'.1 with hin | heq
          · exact Or.inl (by simp at hin ⊢; tauto)
          · exact Or.inr heq
        · intro r hr
          rcases List.mem_cons.mp hr with rfl | hr'
          · have h4 : a ≤ ba0 := h'.2.2 bk0 ba0 rfl
            show a ≤ pe.at'
            omega
          · exact h'.2.1 r hr'
        · intro bk ba hb
          injection hb with h1
          injection h1 with h2 h3
          subst h3
          exact h'.2.2 bk0 ba0 rfl

theorem mapDelete_length_of_mem [DecidableEq K] (m : List (K × Entry V)) (k : K)
    (h : k ∈ m.map (·.1)) : (mapDelete m k).length + 1 = m.length := by
  induction m with
  | nil => simp at h
  | cons p rest ih =>
    obtain ⟨pk, pe⟩ := p
    by_cases hk : pk = k
    · simp [mapDelete, hk]
    · have : k ∈ rest.map (·.1) := by
        simp at h
        rcases h with h | h
        · exact absurd h.symm hk
        · simpa using h
      simp [mapDelete, hk, ih this]

/-- C6: with `maxSize = 2` the sequence `set(a,1); set(b,2); get(a); set(c,3)`
(at strictly increasing times) evicts exactly `b`, the entry with the oldest
`lastAccessed` timestamp — afterwards `get(b)` misses while `get(a) = 1` and
`get(c) = 3`; and in general a `set` that pushes the map over capacity
removes exactly one entry, one whose `at` timestamp is minimal over the
whole map after insertion. -/
theorem cache_lru_eviction :
    ((cacheGet 2 (cacheSet (cacheMaxSize (some 2)) none 1
          (cacheSet (cacheMaxSize (some 2)) none 0 ([] : List (Nat × Entry Int)) 0 1 none)
          1 2 none) 0).1 = some 1 ∧
      (cacheGet 4
          (cacheSet (cacheMaxSize (some 2)) none 3
            (cacheGet 2 (cacheSet (cacheMaxSize (some 2)) none 1
              (cacheSet (cacheMaxSize (some 2)) none 0 ([] : List (Nat × Entry Int)) 0 1 none)
              1 2 none) 0).2
            2 3 none) 1).1 = none ∧
      (cacheGet 4
          (cacheSet (cacheMaxSize (some 2)) none 3
            (cacheGet 2 (cacheSet (cacheMaxSize (some 2)) none 1
              (cacheSet (cacheMaxSize (some 2)) none 0 ([] : List (Nat × Entry Int)) 0 1 none)
              1 2 none) 0).2
            2 3 none) 0).1 = some 1 ∧
      (cacheGet 4
          (cacheSet (cacheMaxSize (some 2)) none 3
            (cacheGet 2 (cacheSet (cacheMaxSize (some 2)) none 1
              (cacheSet (cacheMaxSize (some 2)) none 0 ([] : List (Nat × Entry Int)) 0 1 none)
              1 2 none) 0).2
            2 3 none) 2).1 = some 3) ∧
    (∀ (K V : Type) (inst : DecidableEq K) (maxSize : Nat) (dflt : Option Nat)
      (t : Nat) (m : List (K × Entry V)) (k : K) (v : V) (ttl : Option Nat)
      (m1 : List (K × Entry V)),
      m1 = mapSet m k ⟨v, cacheExp dflt ttl t, t⟩ →
      m1.length > maxSize →
      ∃ ek ea, lruScan m1 none = some (ek, ea) ∧
        cacheSet maxSize dflt t m k v ttl = mapDelete m1 ek ∧
        (∀ p ∈ m1, ea ≤ p.2.at') ∧
        (cacheSet maxSize dflt t m k v ttl).length + 1 = m1.length) := by
  constructor
  · refine ⟨by decide, by decide, by decide, by decide⟩
  · intro K V _inst maxSize dflt t m k v ttl m1 hm1 hlen
    have hne : m1 ≠ [] := by
      intro h
      rw [h] at hlen
      simp at hlen
    obtain ⟨ek, ea, hscan⟩ := lruScan_some_of_ne_nil m1 none (Or.inl hne)
    have hmin := lruScan_min m1 none ek ea hscan
    have hinm : (ek, ea) ∈ m1.map (fun p => (p.1, p.2.at')) := by
      rcases hmin.1 with h | h
      · exact h
      · cases h
    have hkey : ek ∈ m1.map (·.1) := by
      rcases List.mem_map.mp hinm with ⟨p, hp, hpe⟩
      exact List.mem_map.mpr ⟨p, hp, congrArg Prod.fst hpe⟩
    have hset : cacheSet maxSize dflt t m k v ttl = mapDelete m1 ek := by
      unfold cacheSet
      rw [← hm1]
      rw [if_pos hlen]
      unfold evictLRU
      rw [if_neg (by omega), hscan]
    refine ⟨ek, ea, hscan, hset, hmin.2.1, ?_⟩
    rw [hset]
    exact mapDelete_length_of_mem m1 ek hkey

/-- Witness for the second (general, hypothesis-bearing) part of
`cache_lru_eviction`: a one-slot cache holding key 0 receives key 1. -/
theorem cache_lru_eviction_witness :
    ∃ ek ea,
      lruScan (mapSet [(0, (⟨10, none, 5⟩ : Entry Int))] 1
          ⟨20, cacheExp none none 7, 7⟩) none = some (ek, ea) ∧
      cacheSet 1 none 7 [(0, (⟨10, none, 5⟩ : Entry Int))] 1 20 none =
        mapDelete (mapSet [(0, (⟨10, none, 5⟩ : Entry Int))] 1
          ⟨20, cacheExp none none 7, 7⟩) ek ∧
      (∀ p ∈ mapSet [(0, (⟨10, none, 5⟩ : Entry Int))] 1
          ⟨20, cacheExp none none 7, 7⟩, ea ≤ p.2.at') ∧
      (cacheSet 1 none 7 [(0, (⟨10, none, 5⟩ : Entry Int))] 1 20 none).length + 1 =
        (mapSet [(0, (⟨10, none, 5⟩ : Entry Int))] 1
          ⟨20, cacheExp none none 7, 7⟩).length :=
  cache_lru_eviction.2 Nat Int inferInstance 1 none 7
    [(0, ⟨10, none, 5⟩)] 1 20 none _ rfl (by decide)

/-- C7: for an entry stored with a TTL (so `exp` is a timestamp), a `get`
strictly past the expiry deletes the entry and reports a miss — the expired
value is never returned — while a `get` at or before the expiry returns the
stored value (bumping the access time). -/
theorem cache_ttl_lazy_expiry (K V : Type) [DecidableEq K] (t : Nat)
    (m : List (K × Entry V)) (k : K) (e : Entry V) (x : Nat)
    (hget : mapGet m k = some e) (hexp : e.exp = some x) :
    (t > x → cacheGet t m k = (none, mapDelete m k)) ∧
    (t ≤ x → cacheGet t m k = (some e.v, mapSet m k { e with at' := t })) := by
  constructor
  · intro hlate
    unfold cacheGet
    rw [hget]
    have : isExpired t e = true := by
      unfold isExpired
      rw [hexp]
      simp [hlate]
    simp [this]
  · intro hearly
    unfold cacheGet
    rw [hget]
    have : isExpired t e = false := by
      unfold isExpired
      rw [hexp]
      simp
      omega
    simp [this]

/-- Witness for `cache_ttl_lazy_expiry`: the spec's TTL scenario,
`set(x, 42, ttlMs = 10)` at time 0 and reads at times 5 and 15. -/
theorem cache_ttl_lazy_expiry_witness :
    cacheGet 5 [(0, (⟨42, some 10, 0⟩ : Entry Int))] 0 =
      (some 42, [(0, ⟨42, some 10, 5⟩)]) ∧
    cacheGet 15 [(0, (⟨42, some 10, 0⟩ : Entry Int))] 0 = (none, []) := by
  constructor
  · have h := (cache_ttl_lazy_expiry Nat Int 5
      [(0, ⟨42, some 10, 0⟩)] 0 ⟨42, some 10, 0⟩ 10 (by decide) rfl).2 (by omega)
    simpa using h
  · have h := (cache_ttl_lazy_expiry Nat Int 15
      [(0, ⟨42, some 10, 0⟩)] 0 ⟨42, some 10, 0⟩ 10 (by decide) rfl).1 (by omega)
    simpa using h

/-! The circuit breaker of createCircuitBreaker (the circuit_breaker module
reproduced in src/docs/meta-capabilities-part2.md). The constructor clamps
both parameters to at least 1; Date.now() is an explicit argument of every
operation that reads the clock. With the clamped reset at least 1, the
JavaScript comparison `now() - openedAt >= reset` agrees with truncated
natural subtraction even when the clock reads below `openedAt`. -/

/-- The three modes of the breaker (`open` is a Lean keyword, hence
`opened`). -/
inductive BMode where
  | closed
  | opened
  | halfOpen
deriving DecidableEq, Repr

/-- The breaker's mutable state (lines 497-500 of the source): the
consecutive-failure counter, the timestamp recorded on opening, the
half-open probe flag and the mode. -/
structure Breaker where
  failureCount : Nat
  openedAt : Nat
  halfProbeInFlight : Bool
  mode : BMode
deriving DecidableEq, Repr

/-- The state of a freshly constructed breaker. -/
def initBreaker : Breaker := ⟨0, 0, false, .closed⟩

/-- The clamping `Math.max(1, Math.floor(x))` applied to both constructor
arguments (lines 494-495). -/
def clampMin1 (n : Nat) : Nat := max 1 n

/-- `allow()` (lines 504-521) at current time `now`: closed lets the call
through unchanged; open rejects until `reset` has elapsed since `openedAt`
and on the first check at or past the deadline moves to half-open and falls
through; half-open admits exactly one probe, rejecting while one is in
flight. Returns the decision and the updated state. -/
def allow (reset now : Nat) (s : Breaker) : Bool × Breaker :=
  match s.mode with
  | .closed => (true, s)
  | .opened =>
      if now - s.openedAt ≥ reset then
        (true, { s with mode := .halfOpen, halfProbeInFlight := true })
      else
        (false, s)
  | .halfOpen =>
      if s.halfProbeInFlight then (false, s)
      else (true, { s with halfProbeInFlight := true })

/-- `onSuccess()` (lines 523-530): half-open closes the breaker and clears
the probe flag; in every mode the failure counter is reset to zero. -/
def onSuccess (s : Breaker) : Breaker :=
  let s1 :=
    if s.mode = .halfOpen then { s with mode := .closed, halfProbeInFlight := false }
    else s
  { s1 with failureCount := 0 }

/-- `onFailure()` (lines 532-549) at current time `now`: a half-open probe
failure reopens at `now` with the counter and probe flag cleared; a closed
failure increments the counter and opens at `now` (resetting the counter)
once the incremented counter reaches the threshold; an open failure changes
nothing. -/
def onFailure (threshold now : Nat) (s : Breaker) : Breaker :=
  match s.mode with
  | .halfOpen =>
      { s with mode := .opened, openedAt := now, halfProbeInFlight := false,
               failureCount := 0 }
  | .closed =>
      if s.failureCount + 1 ≥ threshold then
        { s with mode := .opened, openedAt := now, failureCount := 0 }
      else
        { s with failureCount := s.failureCount + 1 }
  | .opened => s

/-- Result of one `wrap(fn)` call: the value passed through, the
circuit-open rejection, or the function's own failure rethrown. -/
inductive WrapOut where
  | ok
  | raisedOpen
  | raisedFn
deriving DecidableEq, Repr

/-- `wrap(fn)` (lines 551-561): consult `allow` at time `nowA`; when
admitted, run `fn` (its success given by `fnOk`) and feed the outcome to
`onSuccess` or to `onFailure` at time `nowF`. -/
def wrap (threshold reset nowA nowF : Nat) (fnOk : Bool) (s : Breaker) :
    WrapOut × Breaker :=
  let r := allow reset nowA s
  if r.1 then
    if fnOk then (.ok, onSuccess r.2) else (.raisedFn, onFailure threshold nowF r.2)
  else
    (.raisedOpen, r.2)

/-- One observable operation on a breaker instance, with the clock readings
it makes. -/
inductive BOp where
  | allowOp (now : Nat)
  | successOp
  | failOp (now : Nat)
  | wrapOp (nowA nowF : Nat) (fnOk : Bool)

/-- State transition of a single operation (discarding the returned
values). -/
def stepB (threshold reset : Nat) : BOp → Breaker → Breaker
  | .allowOp now, s => (allow reset now s).2
  | .successOp, s => onSuccess s
  | .failOp now, s => onFailure threshold now s
  | .wrapOp nowA nowF fnOk, s => (wrap threshold reset nowA nowF fnOk s).2

/-- The state after a finite sequence of operations on a breaker built by
`createCircuitBreaker(fails, resetMs)`, whose clamped parameters are
`clampMin1 fails` and `clampMin1 resetMs`. -/
def runBOps (fails resetMs : Nat) (ops : List BOp) : Breaker :=
  ops.foldl (fun st op => stepB (clampMin1 fails) (clampMin1 resetMs) op st) initBreaker

/-- The state invariant of claim C10. -/
def BInv (threshold : Nat) (s : Breaker) : Prop :=
  (s.halfProbeInFlight = true → s.mode = .halfOpen) ∧
  s.failureCount < threshold ∧
  (s.mode ≠ .closed → s.failureCount = 0)

theorem allow_preserves_BInv (threshold reset now : Nat) (s : Breaker)
    (h : BInv threshold s) : BInv threshold (allow reset now s).2 := by
  obtain ⟨fc, oa, hp, md⟩ := s
  obtain ⟨h1, h2, h3⟩ := h
  cases md with
  | closed => exact ⟨h1, h2, h3⟩
  | opened =>
    by_cases he : now - oa ≥ reset
    · simp only [allow, ge_iff_le, he, if_true]
      refine ⟨fun _ => rfl, h2, fun _ => ?_⟩
      show fc = 0
      exact h3 (by intro hx; cases hx)
    · simp only [allow, ge_iff_le, he, if_false]
      exact ⟨h1, h2, h3⟩
  | halfOpen =>
    cases hp with
    | true => exact ⟨h1, h2, h3⟩
    | false =>
      refine ⟨fun _ => rfl, h2, fun _ => ?_⟩
      show fc = 0
      exact h3 (by intro hx; cases hx)

theorem onSuccess_preserves_BInv (threshold : Nat) (s : Breaker)
    (hth : 1 ≤ threshold) (h : BInv threshold s) :
    BInv threshold (onSuccess s) := by
  obtain ⟨fc, oa, hp, md⟩ := s
  obtain ⟨h1, _, _⟩ := h
  cases md with
  | halfOpen => exact ⟨(fun hx => nomatch hx), hth, fun _ => rfl⟩
  | closed => exact ⟨fun hx => h1 hx, hth, fun _ => rfl⟩
  | opened => exact ⟨fun hx => h1 hx, hth, fun _ => rfl⟩

theorem onFailure_preserves_BInv (threshold now : Nat) (s : Breaker)
    (hth : 1 ≤ threshold) (h : BInv threshold s) :
    BInv threshold (onFailure threshold now s) := by
  obtain ⟨fc, oa, hp, md⟩ := s
  obtain ⟨h1, h2, h3⟩ := h
  cases md with
  | halfOpen => exact ⟨(fun hx => nomatch hx), hth, fun _ => rfl⟩
  | closed =>
    by_cases hc : fc + 1 ≥ threshold
    · simp only [onFailure, ge_iff_le, hc, if_true]
      refine ⟨fun hx => ?_, hth, fun _ => rfl⟩
      have hz := h1 hx
      cases hz
    · simp only [onFailure, ge_iff_le, hc, if_false]
      refine ⟨fun hx => h1 hx, ?_, fun hx => absurd rfl hx⟩
      show fc + 1 < threshold
      omega
  | opened => exact ⟨h1, h2, h3⟩

theorem stepB_preserves_BInv (threshold reset : Nat) (op : BOp) (s : Breaker)
    (hth : 1 ≤ threshold) (h : BInv threshold s) :
    BInv threshold (stepB threshold reset op s) := by
  cases op with
  | allowOp now => exact allow_preserves_BInv threshold reset now s h
  | successOp => exact onSuccess_preserves_BInv threshold s hth h
  | failOp now => exact onFailure_preserves_BInv threshold now s hth h
  | wrapOp nowA nowF fnOk =>
    have hs1 : BInv threshold (allow reset nowA s).2 :=
      allow_preserves_BInv threshold reset nowA s h
    show BInv threshold (wrap threshold reset nowA nowF fnOk s).2
    unfold wrap
    by_cases ha : (allow reset nowA s).1 = true
    · rw [if_pos ha]
      cases fnOk with
      | true => exact onSuccess_preserves_BInv threshold _ hth hs1
      | false => exact onFailure_preserves_BInv threshold nowF _ hth hs1
    · rw [if_neg ha]
      exact hs1

/-- C10: after any finite sequence of allow / onSuccess / onFailure / wrap
calls on a breaker built with any `fails` and `resetMs`, the reachable state
keeps the probe flag only in half-open mode, keeps the failure counter
strictly below the clamped (at least 1) threshold, and keeps the counter at
zero outside closed mode. -/
theorem breaker_reachable_invariant (fails resetMs : Nat) (ops : List BOp) :
    BInv (clampMin1 fails) (runBOps fails resetMs ops) := by
  have hth : 1 ≤ clampMin1 fails := le_max_left 1 fails
  suffices hfold : ∀ (l : List BOp) (s : Breaker), BInv (clampMin1 fails) s →
      BInv (clampMin1 fails)
        (l.foldl (fun st op => stepB (clampMin1 fails) (clampMin1 resetMs) op st) s) by
    exact hfold ops initBreaker
      ⟨(fun hc => nomatch hc), le_max_left 1 fails, fun _ => rfl⟩
  intro l
  induction l with
  | nil => intro s hs; exact hs
  | cons op rest ih =>
    intro s hs
    exact ih _ (stepB_preserves_BInv (clampMin1 fails) (clampMin1 resetMs) op s hth hs)

/-- C4: for a breaker in closed mode, onFailure increments the failure
counter while the incremented counter stays below the threshold; once the
incremented counter reaches the threshold the breaker opens at the current
time with the counter reset to zero; and onSuccess while closed resets the
counter to zero leaving everything else unchanged — so only consecutive
failures count toward the threshold. -/
theorem breaker_closed_failure_counting (threshold now : Nat) (s : Breaker)
    (hm : s.mode = .closed) :
    (s.failureCount + 1 < threshold →
      onFailure threshold now s = { s with failureCount := s.failureCount + 1 }) ∧
    (s.failureCount + 1 ≥ threshold →
      onFailure threshold now s =
        { s with mode := .opened, openedAt := now, failureCount := 0 }) ∧
    onSuccess s = { s with failureCount := 0 } := by
  obtain ⟨fc, oa, hp, md⟩ := s
  have hm' : md = .closed := hm
  subst hm'
  refine ⟨?_, ?_, ?_⟩
  · intro h
    have h' : fc + 1 < threshold := h
    have hge : ¬(fc + 1 ≥ threshold) := by omega
    simp [onFailure, hge]
  · intro h
    simp [onFailure, h]
  · simp [onSuccess]

/-- Witness for `breaker_closed_failure_counting`: threshold 2, one failure
below threshold, a second failure reaching it, and a success while closed. -/
theorem breaker_closed_failure_counting_witness :
    onFailure 2 9 ⟨0, 0, false, .closed⟩ = ⟨1, 0, false, .closed⟩ ∧
    onFailure 2 9 ⟨1, 0, false, .closed⟩ = ⟨0, 9, false, .opened⟩ ∧
    onSuccess ⟨1, 0, false, .closed⟩ = ⟨0, 0, false, .closed⟩ := by
  refine ⟨?_, ?_, ?_⟩
  · exact (breaker_closed_failure_counting 2 9 ⟨0, 0, false, .closed⟩ rfl).1 (by decide)
  · exact (breaker_closed_failure_counting 2 9 ⟨1, 0, false, .closed⟩ rfl).2.1 (by decide)
  · exact (breaker_closed_failure_counting 2 9 ⟨1, 0, false, .closed⟩ rfl).2.2

/-- C5: for a breaker in open mode, allow rejects unchanged strictly before
`openedAt + reset` and, at or past that deadline, returns true moving to
half-open with the single probe taken; while half-open with the probe
outstanding allow rejects unchanged; a probe success closes the breaker
with the counter reset; a probe failure reopens it immediately with a new
open timestamp and the counter reset. -/
theorem breaker_open_half_open_protocol (threshold reset now : Nat) (s : Breaker)
    (hreset : 1 ≤ reset) :
    (s.mode = .opened → now < s.openedAt + reset →
      allow reset now s = (false, s)) ∧
    (s.mode = .opened → now ≥ s.openedAt + reset →
      allow reset now s =
        (true, { s with mode := .halfOpen, halfProbeInFlight := true })) ∧
    (s.mode = .halfOpen → s.halfProbeInFlight = true →
      allow reset now s = (false, s)) ∧
    (s.mode = .halfOpen →
      onSuccess s = { s with mode := .closed, halfProbeInFlight := false,
                             failureCount := 0 }) ∧
    (s.mode = .halfOpen →
      onFailure threshold now s =
        { s with mode := .opened, openedAt := now, halfProbeInFlight := false,
                 failureCount := 0 }) := by
  obtain ⟨fc, oa, hp, md⟩ := s
  refine ⟨?_, ?_, ?_, ?_, ?_⟩
  · intro hm hlt
    have hm' : md = .opened := hm
    subst hm'
    have he : ¬(now - oa ≥ reset) := by
      simp only [Breaker.openedAt] at hlt
      omega
    simp [allow, he]
  · intro hm hge
    have hm' : md = .opened := hm
    subst hm'
    have he : now - oa ≥ reset := by
      simp only [Breaker.openedAt] at hge
      omega
    simp [allow, he]
  · intro hm hpf
    have hm' : md = .halfOpen := hm
    subst hm'
    have hp' : hp = true := hpf
    subst hp'
    simp [allow]
  · intro hm
    have hm' : md = .halfOpen := hm
    subst hm'
    simp [onSuccess]
  · intro hm
    have hm' : md = .halfOpen := hm
    subst hm'
    simp [onFailure]

/-- Witness for `breaker_open_half_open_protocol`: reset 5, a breaker opened
at time 10, checked at times 12 and 15, and the subsequent probe outcomes. -/
theorem breaker_open_half_open_protocol_witness :
    allow 5 12 ⟨0, 10, false, .opened⟩ = (false, ⟨0, 10, false, .opened⟩) ∧
    allow 5 15 ⟨0, 10, false, .opened⟩ = (true, ⟨0, 10, true, .halfOpen⟩) ∧
    allow 5 16 ⟨0, 10, true, .halfOpen⟩ = (false, ⟨0, 10, true, .halfOpen⟩) ∧
    onSuccess ⟨0, 10, true, .halfOpen⟩ = ⟨0, 10, false, .closed⟩ ∧
    onFailure 2 20 ⟨0, 10, true, .halfOpen⟩ = ⟨0, 20, false, .opened⟩ := by
  refine ⟨?_, ?_, ?_, ?_, ?_⟩
  · exact (breaker_open_half_open_protocol 2 5 12 ⟨0, 10, false, .opened⟩
      (by decide)).1 rfl (by decide)
  · exact (breaker_open_half_open_protocol 2 5 15 ⟨0, 10, false, .opened⟩
      (by decide)).2.1 rfl (by decide)
  · exact (breaker_open_half_open_protocol 2 5 16 ⟨0, 10, true, .halfOpen⟩
      (by decide)).2.2.1 rfl rfl
  · exact (breaker_open_half_open_protocol 2 5 16 ⟨0, 10, true, .halfOpen⟩
      (by decide)).2.2.2.1 rfl
  · exact (breaker_open_half_open_protocol 2 5 20 ⟨0, 10, true, .halfOpen⟩
      (by decide)).2.2.2.2 rfl

/-! The pipeline executor. `createPipeline(macros, makeBase).execute(step)`
exists in two revisions: src/core.ts and the later src/unnamed/part_012;
they differ observably only in the context handed to the onError hooks.
Contexts are partial maps from string keys to values; each hook is optional
(absent hooks are skipped without being called); a hook returning
JavaScript's `undefined` is modelled by `Option.none`. The executor also
returns the list of hook invocations it performed, so that "never invoked"
properties are stated directly. -/

/-- The execution context: a JavaScript object seen as a partial map. -/
def CtxMap (Val : Type) : Type := String → Option Val

/-- The empty object. -/
def emptyCtx {Val : Type} : CtxMap Val := fun _ => none

/-- The spread/assign merge: keys of `g` override keys of `f`. -/
def mergeCtx {Val : Type} (f g : CtxMap Val) : CtxMap Val := fun k =>
  match g k with
  | some v => some v
  | none => f k

/-- A macro (provider) as in src/core.ts lines 3-11: the `match` predicate
and the five optional hooks. `validate` may throw (its thrown value is the
`some` result); `resolve` contributes a context fragment; `before`, `after`
and `onError` return a defined value or `undefined`. -/
structure Provider (Meta Val : Type) where
  name : String
  matchFn : Meta → Bool
  validate : Option (Meta → Option Val) := none
  resolve : Option (CtxMap Val → Meta → CtxMap Val) := none
  before : Option (CtxMap Val → Meta → Option Val) := none
  after : Option (CtxMap Val → Meta → Val → Option Val) := none
  onError : Option (CtxMap Val → Meta → Val → Option Val) := none

/-- A step (src/core.ts lines 26-30): name, metadata and the run function,
which may throw (`Outcome.raise`). -/
structure StepDef (Meta Val : Type) where
  name : String
  meta : Meta
  run : CtxMap Val → Outcome Val

/-- One hook invocation performed by the executor, for the execution trace. -/
inductive Ev where
  | validateEv (n : String)
  | resolveEv (n : String)
  | beforeEv (n : String)
  | runEv
  | onErrorEv (n : String)
  | afterEv (n : String)
deriving DecidableEq, Repr

variable {Meta Val : Type}

/-- Phase 1 (src/core.ts line 39): `for (const m of active) m.validate?.(s.meta)`;
the first thrown value aborts the loop. Returns the thrown value, if any,
with the trace of validate calls made. -/
def validatePhase (meta : Meta) : List (Provider Meta Val) → Option Val × List Ev
  | [] => (none, [])
  | m :: rest =>
      match m.validate with
      | none => validatePhase meta rest
      | some f =>
          match f meta with
          | some e => (some e, [.validateEv m.name])
          | none =>
              let r := validatePhase meta rest
              (r.1, .validateEv m.name :: r.2)

/-- Phase 2 (src/core.ts lines 43-48): fold the resolved fragments into
`added` with assign semantics, in declaration order. (The part_012 revision
awaits the resolves together but assigns in the same order, so the merged
result is the same.) -/
def resolvePhase (base : CtxMap Val) (meta : Meta) :
    List (Provider Meta Val) → CtxMap Val → CtxMap Val × List Ev
  | [], added => (added, [])
  | m :: rest, added =>
      match m.resolve with
      | none => resolvePhase base meta rest added
      | some r =>
          let rr := resolvePhase base meta rest (mergeCtx added (r base meta))
          (rr.1, .resolveEv m.name :: rr.2)

/-- Phase 3 (src/core.ts lines 52-57): run the `before` hooks in order; the
first defined value short-circuits the loop. -/
def beforePhase (ctx : CtxMap Val) (meta : Meta) :
    List (Provider Meta Val) → Option Val × List Ev
  | [] => (none, [])
  | m :: rest =>
      match m.before with
      | none => beforePhase ctx meta rest
      | some f =>
          match f ctx meta with
          | some v => (some v, [.beforeEv m.name])
          | none =>
              let r := beforePhase ctx meta rest
              (r.1, .beforeEv m.name :: r.2)

/-- Phase 5 (src/core.ts lines 64-69): run the `onError` hooks over the
context `c` in order; the first defined value recovers the failure. -/
def onErrorPhase (c : CtxMap Val) (meta : Meta) (err : Val) :
    List (Provider Meta Val) → Option Val × List Ev
  | [] => (none, [])
  | m :: rest =>
      match m.onError with
      | none => onErrorPhase c meta err rest
      | some f =>
          match f c meta err with
          | some v => (some v, [.onErrorEv m.name])
          | none =>
              let r := onErrorPhase c meta err rest
              (r.1, .onErrorEv m.name :: r.2)

/-- Phase 6 (src/core.ts lines 73-78): fold the result through the `after`
hooks in order; a defined return value replaces the result for the next
hook. -/
def afterPhase (ctx : CtxMap Val) (meta : Meta) :
    List (Provider Meta Val) → Val → Val × List Ev
  | [], r => (r, [])
  | m :: rest, r =>
      match m.after with
      | none => afterPhase ctx meta rest r
      | some f =>
          let r1 :=
            match f ctx meta r with
            | some v => v
            | none => r
          let rr := afterPhase ctx meta rest r1
          (rr.1, .afterEv m.name :: rr.2)

/-- Result of one `execute` call: the returned or raised value plus the
trace of hook invocations. -/
structure ExecResult (Val : Type) where
  out : Outcome Val
  trace : List Ev

/-- `execute` as written in src/core.ts lines 36-81: validate, resolve into
`ctx = { ...base, ...added }`, before with short-circuit, run, onError on a
raise — called with the BASE context (line 66: `m.onError?.(base, s.meta,
err)`) — and the after fold. -/
def executeCore (macros : List (Provider Meta Val)) (base : CtxMap Val)
    (s : StepDef Meta Val) : ExecResult Val :=
  let active := macros.filter (fun m => m.matchFn s.meta)
  let va := validatePhase s.meta active
  match va.1 with
  | some e => ⟨.raise e, va.2⟩
  | none =>
      let re := resolvePhase base s.meta active emptyCtx
      let ctx := mergeCtx base re.1
      let be := beforePhase ctx s.meta active
      match be.1 with
      | some v => ⟨.ok v, va.2 ++ re.2 ++ be.2⟩
      | none =>
          match s.run ctx with
          | .raise err =>
              let oe := onErrorPhase base s.meta err active
              match oe.1 with
              | some v => ⟨.ok v, va.2 ++ re.2 ++ be.2 ++ [.runEv] ++ oe.2⟩
              | none => ⟨.raise err, va.2 ++ re.2 ++ be.2 ++ [.runEv] ++ oe.2⟩
          | .ok r0 =>
              let af := afterPhase ctx s.meta active r0
              ⟨.ok af.1, va.2 ++ re.2 ++ be.2 ++ [.runEv] ++ af.2⟩

/-- `execute` as revised in src/unnamed/part_012 lines 57-114: identical
control flow, except that the onError hooks receive the fully composed
context (line 99: `m.onError?.(ctx, meta, err)`). -/
def executeDev (macros : List (Provider Meta Val)) (base : CtxMap Val)
    (s : StepDef Meta Val) : ExecResult Val :=
  let active := macros.filter (fun m => m.matchFn s.meta)
  let va := validatePhase s.meta active
  match va.1 with
  | some e => ⟨.raise e, va.2⟩
  | none =>
      let re := resolvePhase base s.meta active emptyCtx
      let ctx := mergeCtx base re.1
      let be := beforePhase ctx s.meta active
      match be.1 with
      | some v => ⟨.ok v, va.2 ++ re.2 ++ be.2⟩
      | none =>
          match s.run ctx with
          | .raise err =>
              let oe := onErrorPhase ctx s.meta err active
              match oe.1 with
              | some v => ⟨.ok v, va.2 ++ re.2 ++ be.2 ++ [.runEv] ++ oe.2⟩
              | none => ⟨.raise err, va.2 ++ re.2 ++ be.2 ++ [.runEv] ++ oe.2⟩
          | .ok r0 =>
              let af := afterPhase ctx s.meta active r0
              ⟨.ok af.1, va.2 ++ re.2 ++ be.2 ++ [.runEv] ++ af.2⟩

/-- The value a provider's `before` hook produces in a given context:
`none` both when the hook is absent and when it returns `undefined`. -/
def beforeVal (ctx : CtxMap Val) (meta : Meta) (m : Provider Meta Val) : Option Val :=
  match m.before with
  | none => none
  | some f => f ctx meta

theorem beforePhase_skip (ctx : CtxMap Val) (meta : Meta) :
    ∀ (l1 rest : List (Provider Meta Val)),
      (∀ m ∈ l1, beforeVal ctx meta m = none) →
      beforePhase ctx meta (l1 ++ rest) =
        ((beforePhase ctx meta rest).1,
          (beforePhase ctx meta l1).2 ++ (beforePhase ctx meta rest).2) := by
  intro l1
  induction l1 with
  | nil => intro rest _; simp [beforePhase]
  | cons m l1' ih =>
    intro rest hnone
    have hm : beforeVal ctx meta m = none := hnone m (by simp)
    have htail : ∀ m' ∈ l1', beforeVal ctx meta m' = none := fun m' hm' =>
      hnone m' (List.mem_cons_of_mem m hm')
    cases hb : m.before with
    | none =>
      simp only [List.cons_append, beforePhase, hb]
      exact ih rest htail
    | some f =>
      have hm' : f ctx meta = none := by
        simp only [beforeVal, hb] at hm
        exact hm
      simp only [List.cons_append, beforePhase, hb, hm', List.append_eq]
      rw [ih rest htail]

theorem beforePhase_hit (ctx : CtxMap Val) (meta : Meta)
    (m : Provider Meta Val) (l2 : List (Provider Meta Val)) (v : Val)
    (hv : beforeVal ctx meta m = some v) :
    beforePhase ctx meta (m :: l2) = (some v, [.beforeEv m.name]) := by
  cases hb : m.before with
  | none =>
    simp only [beforeVal, hb] at hv
    cases hv
  | some f =>
    have hv' : f ctx meta = some v := by
      simp only [beforeVal, hb] at hv
      exact hv
    simp [beforePhase, hb, hv']

theorem mem_validatePhase_trace (meta : Meta) :
    ∀ (l : List (Provider Meta Val)) (e : Ev),
      e ∈ (validatePhase meta l).2 → ∃ n, e = .validateEv n := by
  intro l
  induction l with
  | nil => intro e he; simp [validatePhase] at he
  | cons m rest ih =>
    intro e he
    cases hv : m.validate with
    | none =>
      rw [validatePhase, hv] at he
      exact ih e he
    | some f =>
      rw [validatePhase, hv] at he
      cases hf : f meta with
      | some x =>
        simp only [hf] at he
        simp at he
        exact ⟨m.name, he⟩
      | none =>
        simp only [hf] at he
        simp at he
        rcases he with rfl | he
        · exact ⟨m.name, rfl⟩
        · exact ih e he

theorem mem_resolvePhase_trace (base : CtxMap Val) (meta : Meta) :
    ∀ (l : List (Provider Meta Val)) (added : CtxMap Val) (e : Ev),
      e ∈ (resolvePhase base meta l added).2 → ∃ n, e = .resolveEv n := by
  intro l
  induction l with
  | nil => intro added e he; simp [resolvePhase] at he
  | cons m rest ih =>
    intro added e he
    cases hr : m.resolve with
    | none =>
      rw [resolvePhase, hr] at he
      exact ih added e he
    | some r =>
      rw [resolvePhase, hr] at he
      simp at he
      rcases he with rfl | he
      · exact ⟨m.name, rfl⟩
      · exact ih _ e he

theorem mem_beforePhase_trace (ctx : CtxMap Val) (meta : Meta) :
    ∀ (l : List (Provider Meta Val)) (e : Ev),
      e ∈ (beforePhase ctx meta l).2 → ∃ n, e = .beforeEv n := by
  intro l
  induction l with
  | nil => intro e he; simp [beforePhase] at he
  | cons m rest ih =>
    intro e he
    cases hb : m.before with
    | none =>
      rw [beforePhase, hb] at he
      exact ih e he
    | some f =>
      rw [beforePhase, hb] at he
      cases hf : f ctx meta with
      | some x =>
        simp only [hf] at he
        simp at he
        exact ⟨m.name, he⟩
      | none =>
        simp only [hf] at he
        simp at he
        rcases he with rfl | he
        · exact ⟨m.name, rfl⟩
        · exact ih e he

theorem executeCore_before_char (macros : List (Provider Meta Val))
    (base : CtxMap Val) (s : StepDef Meta Val) (v : Val)
    (hval : (validatePhase s.meta (macros.filter (fun m => m.matchFn s.meta))).1 = none)
    (hbe : (beforePhase
        (mergeCtx base (resolvePhase base s.meta
          (macros.filter (fun m => m.matchFn s.meta)) emptyCtx).1)
        s.meta (macros.filter (fun m => m.matchFn s.meta))).1 = some v) :
    executeCore macros base s =
      ⟨.ok v,
        (validatePhase s.meta (macros.filter (fun m => m.matchFn s.meta))).2 ++
        (resolvePhase base s.meta (macros.filter (fun m => m.matchFn s.meta)) emptyCtx).2 ++
        (beforePhase
          (mergeCtx base (resolvePhase base s.meta
            (macros.filter (fun m => m.matchFn s.meta)) emptyCtx).1)
          s.meta (macros.filter (fun m => m.matchFn s.meta))).2⟩ := by
  simp only [executeCore]
  split
  · next e heq => rw [hval] at heq; cases heq
  · next =>
    split
    · next v' heq2 =>
      rw [hbe] at heq2
      injection heq2 with h
      subst h
      rfl
    · next heq2 => rw [hbe] at heq2; cases heq2

theorem executeCore_run_ok_char (macros : List (Provider Meta Val))
    (base : CtxMap Val) (s : StepDef Meta Val) (r0 : Val)
    (hval : (validatePhase s.meta (macros.filter (fun m => m.matchFn s.meta))).1 = none)
    (hbe : (beforePhase
        (mergeCtx base (resolvePhase base s.meta
          (macros.filter (fun m => m.matchFn s.meta)) emptyCtx).1)
        s.meta (macros.filter (fun m => m.matchFn s.meta))).1 = none)
    (hrun : s.run (mergeCtx base (resolvePhase base s.meta
        (macros.filter (fun m => m.matchFn s.meta)) emptyCtx).1) = .ok r0) :
    executeCore macros base s =
      ⟨.ok (afterPhase
          (mergeCtx base (resolvePhase base s.meta
            (macros.filter (fun m => m.matchFn s.meta)) emptyCtx).1)
          s.meta (macros.filter (fun m => m.matchFn s.meta)) r0).1,
        (validatePhase s.meta (macros.filter (fun m => m.matchFn s.meta))).2 ++
        (resolvePhase base s.meta (macros.filter (fun m => m.matchFn s.meta)) emptyCtx).2 ++
        (beforePhase
          (mergeCtx base (resolvePhase base s.meta
            (macros.filter (fun m => m.matchFn s.meta)) emptyCtx).1)
          s.meta (macros.filter (fun m => m.matchFn s.meta))).2 ++
        [.runEv] ++
        (afterPhase
          (mergeCtx base (resolvePhase base s.meta
            (macros.filter (fun m => m.matchFn s.meta)) emptyCtx).1)
          s.meta (macros.filter (fun m => m.matchFn s.meta)) r0).2⟩ := by
  simp only [executeCore]
  split
  · next e heq => rw [hval] at heq; cases heq
  · next =>
    split
    · next v' heq2 => rw [hbe] at heq2; cases heq2
    · next =>
      split
      · next err heq3 => rw [hrun] at heq3; cases heq3
      · next r0' heq3 =>
        rw [hrun] at heq3
        injection heq3 with h
        subst h
        rfl

theorem executeCore_run_raise_char (macros : List (Provider Meta Val))
    (base : CtxMap Val) (s : StepDef Meta Val) (err : Val)
    (hval : (validatePhase s.meta (macros.filter (fun m => m.matchFn s.meta))).1 = none)
    (hbe : (beforePhase
        (mergeCtx base (resolvePhase base s.meta
          (macros.filter (fun m => m.matchFn s.meta)) emptyCtx).1)
        s.meta (macros.filter (fun m => m.matchFn s.meta))).1 = none)
    (hrun : s.run (mergeCtx base (resolvePhase base s.meta
        (macros.filter (fun m => m.matchFn s.meta)) emptyCtx).1) = .raise err) :
    (executeCore macros base s).out =
      (match (onErrorPhase base s.meta err
          (macros.filter (fun m => m.matchFn s.meta))).1 with
        | some v => Outcome.ok v
        | none => Outcome.raise err) := by
  simp only [executeCore]
  split
  · next e heq => rw [hval] at heq; cases heq
  · next =>
    split
    · next v' heq2 => rw [hbe] at heq2; cases heq2
    · next =>
      split
      · next err' heq3 =>
        rw [hrun] at heq3
        injection heq3 with h
        subst h
        split <;> rfl
      · next r0' heq3 => rw [hrun] at heq3; cases heq3

/-- C8: when validation passes and, in the composed context, every active
provider declared before `m` has an undefined `before` while `m`'s `before`
yields the defined value `v`, execute returns `v` as the final output; the
trace consists of the validate and resolve calls, the skipped befores and
`m`'s before only — the step's run function, the remaining providers'
before hooks and all after (and onError) hooks are never invoked. -/
theorem execute_before_short_circuit (macros : List (Provider Meta Val))
    (base : CtxMap Val) (s : StepDef Meta Val)
    (l1 l2 : List (Provider Meta Val)) (m : Provider Meta Val) (v : Val)
    (hactive : macros.filter (fun mm => mm.matchFn s.meta) = l1 ++ m :: l2)
    (hval : (validatePhase s.meta (l1 ++ m :: l2)).1 = none)
    (hskip : ∀ mm ∈ l1,
      beforeVal (mergeCtx base (resolvePhase base s.meta (l1 ++ m :: l2) emptyCtx).1)
        s.meta mm = none)
    (hhit : beforeVal (mergeCtx base (resolvePhase base s.meta (l1 ++ m :: l2) emptyCtx).1)
        s.meta m = some v) :
    (executeCore macros base s).out = .ok v ∧
    (executeCore macros base s).trace =
      (validatePhase s.meta (l1 ++ m :: l2)).2 ++
      (resolvePhase base s.meta (l1 ++ m :: l2) emptyCtx).2 ++
      ((beforePhase (mergeCtx base (resolvePhase base s.meta (l1 ++ m :: l2) emptyCtx).1)
          s.meta l1).2 ++ [.beforeEv m.name]) ∧
    Ev.runEv ∉ (executeCore macros base s).trace ∧
    (∀ n, Ev.afterEv n ∉ (executeCore macros base s).trace) ∧
    (∀ n, Ev.onErrorEv n ∉ (executeCore macros base s).trace) := by
  have hbe2 : beforePhase
      (mergeCtx base (resolvePhase base s.meta (l1 ++ m :: l2) emptyCtx).1)
      s.meta (l1 ++ m :: l2) =
      (some v,
        (beforePhase (mergeCtx base (resolvePhase base s.meta (l1 ++ m :: l2) emptyCtx).1)
          s.meta l1).2 ++ [.beforeEv m.name]) := by
    rw [beforePhase_skip _ _ l1 (m :: l2) hskip]
    rw [beforePhase_hit _ _ m l2 v hhit]
  have hchar := executeCore_before_char macros base s v
    (by rw [hactive]; exact hval)
    (by rw [hactive, hbe2])
  have htr : (executeCore macros base s).trace =
      (validatePhase s.meta (l1 ++ m :: l2)).2 ++
      (resolvePhase base s.meta (l1 ++ m :: l2) emptyCtx).2 ++
      ((beforePhase (mergeCtx base (resolvePhase base s.meta (l1 ++ m :: l2) emptyCtx).1)
          s.meta l1).2 ++ [.beforeEv m.name]) := by
    rw [hchar]
    simp only [hactive, hbe2]
  have hshape : ∀ e ∈ (executeCore macros base s).trace,
      (∃ n, e = Ev.validateEv n) ∨ (∃ n, e = Ev.resolveEv n) ∨
      (∃ n, e = Ev.beforeEv n) := by
    intro e he
    rw [htr] at he
    simp only [List.mem_append, List.mem_singleton] at he
    rcases he with ((h | h) | (h | h))
    · exact Or.inl (mem_validatePhase_trace s.meta _ e h)
    · exact Or.inr (Or.inl (mem_resolvePhase_trace base s.meta _ _ e h))
    · exact Or.inr (Or.inr (mem_beforePhase_trace _ s.meta _ e h))
    · exact Or.inr (Or.inr ⟨m.name, h⟩)
  refine ⟨by rw [hchar], htr, ?_, ?_, ?_⟩
  · intro hmem
    rcases hshape _ hmem with ⟨n, h⟩ | ⟨n, h⟩ | ⟨n, h⟩ <;> cases h
  · intro n0 hmem
    rcases hshape _ hmem with ⟨n, h⟩ | ⟨n, h⟩ | ⟨n, h⟩ <;> cases h
  · intro n0 hmem
    rcases hshape _ hmem with ⟨n, h⟩ | ⟨n, h⟩ | ⟨n, h⟩ <;> cases h

/-- A provider whose only hooks are a resolve adding key "g" and a before
hook returning the defined value 5; used as the short-circuiting provider. -/
def guardProvider : Provider Unit Int :=
  { name := "guard",
    matchFn := fun _ => true,
    before := some (fun _ _ => some 5) }

/-- A provider with a before hook that returns `undefined`. -/
def passProvider : Provider Unit Int :=
  { name := "pass",
    matchFn := fun _ => true,
    before := some (fun _ _ => none) }

/-- A provider carrying an after hook that doubles the result. -/
def doubleProvider : Provider Unit Int :=
  { name := "double",
    matchFn := fun _ => true,
    after := some (fun _ _ x => some (x * 2)) }

/-- A step returning 10. -/
def tenStep : StepDef Unit Int :=
  { name := "ten", meta := (), run := fun _ => .ok 10 }

/-- Witness for `execute_before_short_circuit`: a pass-through before, then
a guard short-circuiting with 5, then an after hook that would double —
execute returns 5 and neither run nor the after hook fires. -/
theorem execute_before_short_circuit_witness :
    (executeCore [passProvider, guardProvider, doubleProvider] emptyCtx tenStep).out =
      .ok 5 ∧
    Ev.runEv ∉ (executeCore [passProvider, guardProvider, doubleProvider]
      emptyCtx tenStep).trace ∧
    Ev.afterEv "double" ∉ (executeCore [passProvider, guardProvider, doubleProvider]
      emptyCtx tenStep).trace := by
  have h := execute_before_short_circuit
    [passProvider, guardProvider, doubleProvider] emptyCtx tenStep
    [passProvider] [doubleProvider] guardProvider 5
    rfl rfl (by intro mm hmm; fin_cases hmm; rfl) rfl
  exact ⟨h.1, h.2.2.1, h.2.2.2.1 "double"⟩

theorem afterPhase_foldl (ctx : CtxMap Val) (meta : Meta) :
    ∀ (l : List (Provider Meta Val)) (r : Val),
      (afterPhase ctx meta l r).1 =
        l.foldl (fun acc mm =>
          match mm.after with
          | none => acc
          | some f =>
            match f ctx meta acc with
            | some v => v
            | none => acc) r := by
  intro l
  induction l with
  | nil => intro r; rfl
  | cons m rest ih =>
    intro r
    cases ha : m.after with
    | none => simp only [afterPhase, ha, List.foldl_cons, ih]
    | some f => simp only [afterPhase, ha, List.foldl_cons, ih]

/-- C9: when validation passes, no before hook short-circuits and the run
function returns `r0`, execute returns `r0` folded left-to-right through
the active providers' after hooks, each defined return value replacing the
result seen by the next hook and an undefined return leaving it unchanged. -/
theorem execute_after_chain (macros : List (Provider Meta Val))
    (base : CtxMap Val) (s : StepDef Meta Val) (r0 : Val)
    (hval : (validatePhase s.meta (macros.filter (fun m => m.matchFn s.meta))).1 = none)
    (hbe : (beforePhase
        (mergeCtx base (resolvePhase base s.meta
          (macros.filter (fun m => m.matchFn s.meta)) emptyCtx).1)
        s.meta (macros.filter (fun m => m.matchFn s.meta))).1 = none)
    (hrun : s.run (mergeCtx base (resolvePhase base s.meta
        (macros.filter (fun m => m.matchFn s.meta)) emptyCtx).1) = .ok r0) :
    (executeCore macros base s).out =
      .ok ((macros.filter (fun m => m.matchFn s.meta)).foldl (fun acc mm =>
        match mm.after with
        | none => acc
        | some f =>
          match f (mergeCtx base (resolvePhase base s.meta
              (macros.filter (fun m => m.matchFn s.meta)) emptyCtx).1) s.meta acc with
          | some v => v
          | none => acc) r0) := by
  rw [executeCore_run_ok_char macros base s r0 hval hbe hrun]
  rw [afterPhase_foldl]

/-- A provider carrying an after hook that adds one to the result. -/
def incProvider : Provider Unit Int :=
  { name := "inc",
    matchFn := fun _ => true,
    after := some (fun _ _ x => some (x + 1)) }

/-- Witness for `execute_after_chain`: run gives 10, the first after hook
adds one and the second doubles the transformed value, yielding 22. -/
theorem execute_after_chain_witness :
    (executeCore [incProvider, doubleProvider] emptyCtx tenStep).out = .ok 22 := by
  have h := execute_after_chain [incProvider, doubleProvider] emptyCtx tenStep 10
    rfl rfl rfl
  rw [h]
  decide

/-- Dropping a provider's resolve hook, everything else unchanged. -/
def clearResolve (m : Provider Meta Val) : Provider Meta Val :=
  { m with resolve := none }

theorem filter_map_clearResolve (s : StepDef Meta Val) :
    ∀ (l : List (Provider Meta Val)),
      (l.map clearResolve).filter (fun m => m.matchFn s.meta) =
        (l.filter (fun m => m.matchFn s.meta)).map clearResolve := by
  intro l
  induction l with
  | nil => rfl
  | cons m rest ih =>
    cases h : m.matchFn s.meta <;>
      simp [clearResolve, List.filter_cons, h, ih]

theorem validatePhase_map_clearResolve (meta : Meta) :
    ∀ (l : List (Provider Meta Val)),
      validatePhase meta (l.map clearResolve) = validatePhase meta l := by
  intro l
  induction l with
  | nil => rfl
  | cons m rest ih =>
    cases hv : m.validate with
    | none => simp only [List.map_cons, validatePhase, clearResolve, hv, ih]
    | some f =>
      cases hf : f meta <;>
        simp only [List.map_cons, validatePhase, clearResolve, hv, hf, ih]

theorem onErrorPhase_map_clearResolve (c : CtxMap Val) (meta : Meta) (err : Val) :
    ∀ (l : List (Provider Meta Val)),
      onErrorPhase c meta err (l.map clearResolve) = onErrorPhase c meta err l := by
  intro l
  induction l with
  | nil => rfl
  | cons m rest ih =>
    cases ho : m.onError with
    | none => simp only [List.map_cons, onErrorPhase, clearResolve, ho, ih]
    | some f =>
      cases hf : f c meta err <;>
        simp only [List.map_cons, onErrorPhase, clearResolve, ho, hf, ih]

theorem beforePhase_all_none (ctx : CtxMap Val) (meta : Meta) :
    ∀ (l : List (Provider Meta Val)), (∀ m ∈ l, m.before = none) →
      beforePhase ctx meta l = (none, []) := by
  intro l
  induction l with
  | nil => intro _; rfl
  | cons m rest ih =>
    intro hall
    have hm : m.before = none := hall m (by simp)
    simp only [beforePhase, hm]
    exact ih fun m' hm' => hall m' (List.mem_cons_of_mem m hm')

/-- C3 (amended): in the src/core.ts executor the onError hooks are invoked
with the base context only, so error handlers cannot observe the resolved
fragments: when no provider has a before hook and the run function raises
`err` whatever its context, removing every resolve hook does not change the
output. (The src/unnamed/part_012 revision is the one that passes the fully
composed context, as the counterexample exhibits.) -/
theorem executeCore_onError_base_only (macros : List (Provider Meta Val))
    (base : CtxMap Val) (s : StepDef Meta Val) (err : Val)
    (hval : (validatePhase s.meta (macros.filter (fun m => m.matchFn s.meta))).1 = none)
    (hb : ∀ m ∈ macros, m.before = none)
    (hrun : ∀ c, s.run c = .raise err) :
    (executeCore macros base s).out =
      (executeCore (macros.map clearResolve) base s).out := by
  have hfil := filter_map_clearResolve s macros
  have hbf : ∀ m ∈ macros.filter (fun m => m.matchFn s.meta), m.before = none :=
    fun m hm => hb m (List.mem_of_mem_filter hm)
  have hbf2 : ∀ m ∈ (macros.filter (fun m => m.matchFn s.meta)).map clearResolve,
      m.before = none := by
    intro m hm
    rcases List.mem_map.mp hm with ⟨m0, hm0, rfl⟩
    exact hbf m0 hm0
  have h1 := executeCore_run_raise_char macros base s err hval
    (by rw [beforePhase_all_none _ _ _ hbf]) (hrun _)
  have h2 := executeCore_run_raise_char (macros.map clearResolve) base s err
    (by rw [hfil, validatePhase_map_clearResolve]; exact hval)
    (by rw [hfil, beforePhase_all_none _ _ _ hbf2]) (hrun _)
  rw [h1, h2, hfil, onErrorPhase_map_clearResolve]

/-- A provider that resolves the fragment { k: 1 } and recovers an error
with the value of key "k" in the context its onError hook receives. -/
def resRecoverProvider : Provider Unit Int :=
  { name := "res",
    matchFn := fun _ => true,
    resolve := some (fun _ _ => fun k => if k = "k" then some 1 else none),
    onError := some (fun c _ _ => c "k") }

/-- A step that always throws 7. -/
def throwingStep : StepDef Unit Int :=
  { name := "boom", meta := (), run := fun _ => .raise 7 }

/-- C3 (counterexample to the claim as stated): the onError handler looks up
the resolved key "k" in the context it is given. Were it given the composed
context (as the claim states and as the part_012 revision does), it would
recover with value 1; the src/core.ts executor hands it the base context, so
the lookup is undefined, no recovery happens, and the error 7 propagates. -/
theorem core_onError_base_ctx_cex :
    (executeCore [resRecoverProvider] emptyCtx throwingStep).out = .raise 7 ∧
    (executeDev [resRecoverProvider] emptyCtx throwingStep).out = .ok 1 := by
  constructor <;> rfl

/-- Witness for `executeCore_onError_base_only` at the counterexample's
input: clearing the resolve hook leaves the core executor's output as is. -/
theorem executeCore_onError_base_only_witness :
    (executeCore [resRecoverProvider] emptyCtx throwingStep).out =
      (executeCore [clearResolve resRecoverProvider] emptyCtx throwingStep).out := by
  have h := executeCore_onError_base_only [resRecoverProvider] emptyCtx throwingStep 7
    rfl (by intro m hm; fin_cases hm; rfl) (fun c => rfl)
  simpa using h

end MacroFX
